import Mathlib

/-!
# Verification of `uniform/charmm.cxx`

A shallow embedding of the range partitioner, the periodic coordinate codec,
the packed index, the direct Van der Waals kernel and the validation step of
`uniform/charmm.cxx`, followed by theorems about them.

Conventions of the embedding.

* An `int` is a 32-bit two's complement integer, carried as the `Int` of its
  value.  Every `+`, `-`, `*` of `splitRange` is reduced to 32 bits with
  `wrapInt32`, the result the usual targets produce on signed overflow; `/`
  and `%` of C++ truncate towards zero, hence `Int.tdiv` and `Int.tmod`.
* The bit-packed index uses 32-bit two's complement explicitly (`toU32`,
  `toI32`, everything reduced modulo `2 ^ 32`).
* `real_t` / `double` values are elements of a linearly ordered field
  (exact arithmetic); instantiating the field with `ℚ` makes every
  definition executable.
* A failed `assert` and an integer division by zero are the result `none`.
-/

namespace Charmm

/-! ## Machine integers -/

/-- Conversion `unsigned(x)` of a 32-bit `int`: the value modulo `2 ^ 32`. -/
def toU32 (x : Int) : Nat := (x % 2 ^ 32).toNat

/-- Conversion of a 32-bit pattern to `int` (two's complement). -/
def toI32 (n : Nat) : Int :=
  if n % 2 ^ 32 < 2 ^ 31 then ((n % 2 ^ 32 : Nat) : Int) else ((n % 2 ^ 32 : Nat) : Int) - 2 ^ 32

/-- The 32-bit `int` that holds the exact result `x` of an arithmetic
operation: `x` reduced to two's complement. -/
def wrapInt32 (x : Int) : Int := toI32 (toU32 x)

/-! ## RangePartitioner -/

/-- `splitRange(begin, end, iSplit, numSplit)`: the source updates `begin` and
`end` in place; the embedding returns the updated pair `(begin, end)`.
`none` stands for the failed `assert(end > begin)` and for the division by
zero when `numSplit = 0`.  Every arithmetic result is stored in an `int`,
hence reduced with `wrapInt32`. -/
def splitRange (begin endG iSplit numSplit : Int) : Option (Int × Int) :=
  if ¬ (endG > begin) then none
  else if numSplit = 0 then none
  else
    let size := wrapInt32 (endG - begin)
    let increment := wrapInt32 (size.tdiv numSplit)
    let remainder := size.tmod numSplit
    let beginLocal :=
      wrapInt32 (begin + wrapInt32 (wrapInt32 (iSplit * increment) + min iSplit remainder))
    let endLocal := wrapInt32 (beginLocal + increment)
    let endLocal := if remainder > iSplit then wrapInt32 (endLocal + 1) else endLocal
    some (beginLocal, endLocal)

/-! ## PeriodicCoordinateCodec

A `vec3` / `vec4` is a map from the component index to the component; `wrap`
and `unwrap` touch the components `0, 1, 2` only.  The flag word `iwrap` only
ever holds the bits `0, 1, 2`, so it is a natural number. -/

section Real
variable {α : Type} [LinearOrderedField α]

/-- Body of the loop of `wrap` for the axis `d`, on the state `(X, iwrap)`:
the two `if` statements in sequence. -/
def wrapStep (cycle : α) (s : (Nat → α) × Nat) (d : Nat) : (Nat → α) × Nat :=
  let s1 : (Nat → α) × Nat :=
    if s.1 d < 0 then (Function.update s.1 d (s.1 d + cycle), s.2 ||| (1 <<< d)) else s
  if s1.1 d > cycle then (Function.update s1.1 d (s1.1 d - cycle), s1.2 ||| (1 <<< d)) else s1

/-- `wrap(X, cycle)`: returns the updated vector and the flag word `iwrap`. -/
def wrap (X : Nat → α) (cycle : α) : (Nat → α) × Nat :=
  (List.range 3).foldl (wrapStep cycle) (X, 0)

/-- Body of the loop of `unwrap` for the axis `d`. -/
def unwrapStep (cycle : α) (iwrap : Nat) (X : Nat → α) (d : Nat) : Nat → α :=
  if (iwrap >>> d) &&& 1 ≠ 0 then
    Function.update X d (X d + (if X d > cycle / 2 then -cycle else cycle))
  else X

/-- `unwrap(X, cycle, iwrap)`: returns the updated vector. -/
def unwrap (X : Nat → α) (cycle : α) (iwrap : Nat) : Nat → α :=
  (List.range 3).foldl (unwrapStep cycle iwrap) X

/-- Effect of the two tests of `wrap` on one coordinate `c` (used to state
the per-axis lemmas). -/
def wrapCoord (cycle c : α) : α :=
  let c1 := if c < 0 then c + cycle else c
  if c1 > cycle then c1 - cycle else c1

/-- Whether one of the two tests of `wrap` fires on the coordinate `c`. -/
def wrapFlag (cycle c : α) : Bool :=
  decide (c < 0) || decide ((if c < 0 then c + cycle else c) > cycle)

/-- Effect of `unwrap` on one coordinate `c` whose flag is `b`. -/
def unwrapCoord (cycle : α) (b : Bool) (c : α) : α :=
  if b then c + (if c > cycle / 2 then -cycle else cycle) else c

end Real

/-! ## EncodedIndex: 32-bit two's complement -/

/-- The constant `shift = 29`. -/
def shift : Nat := 29

/-- The constant `mask = ~(0x7U << shift)` converted to `int`. -/
def mask : Int := toI32 ((2 ^ 32 - 1) - (0x7 <<< shift) % 2 ^ 32)

/-- Left shift `a << s` of a 32-bit `int`. -/
def shl32 (a : Int) (s : Nat) : Int := toI32 ((toU32 a <<< s) % 2 ^ 32)

/-- Bitwise or `a | b` of two 32-bit `int`s. -/
def or32 (a b : Int) : Int := toI32 (toU32 a ||| toU32 b)

/-- Bitwise and `a & b` of two 32-bit `int`s. -/
def and32 (a b : Int) : Int := toI32 (toU32 a &&& toU32 b)

/-- The packing in `main`: `Index[b] = i | (iwrap << shift)`. -/
def encodeIndex (i iwrap : Int) : Int := or32 i (shl32 iwrap shift)

/-- The unpacking in `main`: `i = Index[b] & mask` and
`iwrap = unsigned(Index[b]) >> shift`. -/
def decodeIndex (index : Int) : Int × Int :=
  (and32 index mask, toI32 (toU32 index >>> shift))

/-! ## DirectPairKernel -/

section Kernel
variable {α : Type} [LinearOrderedField α]

/-- Modelled from the spec: `norm` of the vector header, which is not part of
the source file; the spec has `R2 = |dX|²`, the sum of the squares of the
three components. -/
def norm (X : Nat → α) : α := X 0 * X 0 + X 1 * X 1 + X 2 * X 2

/-- The pair `(tmp, dtmp)` of the branch `cuton2 < R2` of `directVanDerWaals`
(`dtmp` before `dtmp *= fgs`), as a function of `R2` and `rs`. -/
def switchedBranch (cuton cutoff rs R2 : α) : α × α :=
  let R2s := R2 * rs
  let invR2 := 1 / R2s
  let invR6 := invR2 * invR2 * invR2
  let cuton2 := cuton * cuton
  let cutoff2 := cutoff * cutoff
  let tmp1 := (cutoff2 - R2) / ((cutoff2 - cuton2) * (cutoff2 - cuton2) * (cutoff2 - cuton2))
  let tmp2 := tmp1 * (cutoff2 - R2) * (cutoff2 - 3 * cuton2 + 2 * R2)
  let tmp := invR6 * (invR6 - 1) * tmp2
  let dtmp := invR6 * (invR6 - 1) * 12 * (cuton2 - R2) * tmp1
    - 6 * invR6 * (invR6 + (invR6 - 1) * tmp2) * tmp2 / R2
  (tmp, dtmp)

/-- The pair `(tmp, dtmp)` of the `else` branch (`R2 ≤ cuton2`) of
`directVanDerWaals` (`dtmp` before `dtmp *= fgs`). -/
def unswitchedBranch (rs R2 : α) : α × α :=
  let R2s := R2 * rs
  let invR2 := 1 / R2s
  let invR6 := invR2 * invR2 * invR2
  let tmp := invR6 * (invR6 - 1)
  let dtmp := invR2 * invR6 * (2 * invR6 - 1)
  (tmp, dtmp)

/-- The vector `dX` of `directVanDerWaals` for the pair `(i, j)`:
`dX[d] = x[3*i+d] - x[3*j+d]` for `d = 0, 1, 2`, then `wrap(dX, cycle)`, whose
returned flag word is dropped.  The call is read as the `wrap` of this file,
the only one in the source; `dX` is declared `vec3` where that `wrap` takes a
`vec4 &`, and the vector header is not part of the source. -/
def pairDisplacement (x : Nat → α) (cycle : α) (i j : Nat) : Nat → α :=
  (wrap (fun d => if d < 3 then x (3 * i + d) - x (3 * j + d) else 0) cycle).1

/-- The accumulators `pp, fx, fy, fz` of one particle `i`. -/
structure Acc (α : Type) where
  pp : α
  fx : α
  fy : α
  fz : α

/-- Body of the loop over `j` in `directVanDerWaals`, for the owned particle
`i`: the accumulators after the term `j`. -/
def pairStep (atype : Nat → Int) (x : Nat → α) (cuton cutoff cycle : α) (numTypes : Int)
    (rscale gscale fgscale : Int → α) (i : Nat) (acc : Acc α) (j : Nat) : Acc α :=
  let dX := pairDisplacement x cycle i j
  let R2 := norm dX
  if R2 ≠ 0 then
    let atypei := atype i - 1
    let atypej := atype j - 1
    let rs := rscale (atypei * numTypes + atypej)
    let gs := gscale (atypei * numTypes + atypej)
    let fgs := fgscale (atypei * numTypes + atypej)
    let cuton2 := cuton * cuton
    let cutoff2 := cutoff * cutoff
    if R2 < cutoff2 then
      let t := if cuton2 < R2 then switchedBranch cuton cutoff rs R2 else unswitchedBranch rs R2
      let tmp := t.1
      let dtmp := t.2 * fgs
      { pp := acc.pp + gs * tmp
        fx := acc.fx + dX 0 * dtmp
        fy := acc.fy + dX 1 * dtmp
        fz := acc.fz + dX 2 * dtmp }
    else acc
  else acc

/-- Body of the loop over `i` in `directVanDerWaals`, on the state `(p, f)`. -/
def directStep (nglobal : Int) (icpumap atype : Nat → Int) (x : Nat → α)
    (cuton cutoff cycle : α) (numTypes : Int) (rscale gscale fgscale : Int → α)
    (s : (Nat → α) × (Nat → α)) (i : Nat) : (Nat → α) × (Nat → α) :=
  if icpumap i = 1 then
    let acc := (List.range nglobal.toNat).foldl
      (pairStep atype x cuton cutoff cycle numTypes rscale gscale fgscale i) ⟨0, 0, 0, 0⟩
    let p := Function.update s.1 i (s.1 i + acc.pp)
    let f := Function.update s.2 (3 * i + 0) (s.2 (3 * i + 0) - acc.fx)
    let f := Function.update f (3 * i + 1) (f (3 * i + 1) - acc.fy)
    let f := Function.update f (3 * i + 2) (f (3 * i + 2) - acc.fz)
    (p, f)
  else s

/-- `directVanDerWaals`: returns the arrays `(p, f)` after the call. -/
def directVanDerWaals (nglobal : Int) (icpumap atype : Nat → Int) (x p f : Nat → α)
    (cuton cutoff cycle : α) (numTypes : Int) (rscale gscale fgscale : Int → α) :
    (Nat → α) × (Nat → α) :=
  (List.range nglobal.toNat).foldl
    (directStep nglobal icpumap atype x cuton cutoff cycle numTypes rscale gscale fgscale) (p, f)

/-- The switching polynomial as the spec writes it:
`S(R2) = (cutoff² − R2)² (cutoff² − 3 cuton² + 2 R2) / (cutoff² − cuton²)³`. -/
def switchS (cuton cutoff R2 : α) : α :=
  (cutoff ^ 2 - R2) ^ 2 * (cutoff ^ 2 - 3 * cuton ^ 2 + 2 * R2) / (cutoff ^ 2 - cuton ^ 2) ^ 3

end Kernel

/-! ## ValidationHarness -/

section Verify
variable {α : Type} [LinearOrderedField α]

/-- The four partial sums of one worker in the `verify` step of `main`. -/
structure Sums (α : Type) where
  potSum : α
  potSum2 : α
  accDif : α
  accNrm : α

/-- Body of the loop of the `verify` step. -/
def sumsStep (icpumap : Nat → Int) (p p2 f f2 : Nat → α) (s : Sums α) (i : Nat) : Sums α :=
  if icpumap i = 1 then
    { potSum := s.potSum + p i
      potSum2 := s.potSum2 + p2 i
      accDif := s.accDif + ((f (3 * i + 0) - f2 (3 * i + 0)) * (f (3 * i + 0) - f2 (3 * i + 0))
        + (f (3 * i + 1) - f2 (3 * i + 1)) * (f (3 * i + 1) - f2 (3 * i + 1))
        + (f (3 * i + 2) - f2 (3 * i + 2)) * (f (3 * i + 2) - f2 (3 * i + 2)))
      accNrm := s.accNrm + (f2 (3 * i + 0) * f2 (3 * i + 0)
        + f2 (3 * i + 1) * f2 (3 * i + 1)
        + f2 (3 * i + 2) * f2 (3 * i + 2)) }
  else s

/-- The loop of the `verify` step on one worker. -/
def localSums (nglobal : Int) (icpumap : Nat → Int) (p p2 f f2 : Nat → α) : Sums α :=
  (List.range nglobal.toNat).foldl (sumsStep icpumap p p2 f f2) ⟨0, 0, 0, 0⟩

/-- Modelled from the spec: `MPI_Reduce` with `MPI_SUM` is a library call; the
spec has "global-sum-reduce the four scalars across all workers".  The
argument lists the contribution of every worker. -/
def reduceSum (parts : List α) : α := parts.foldl (fun a b => a + b) 0

/-- The end of the `verify` step: the pair `(potRel, accRel)` from the partial
sums of all workers.  `sqrt` is `std::sqrt`, a parameter. -/
def verify (sqrt : α → α) (parts : List (Sums α)) : α × α :=
  let potSumGlob := reduceSum (parts.map fun s => s.potSum)
  let potSumGlob2 := reduceSum (parts.map fun s => s.potSum2)
  let accDifGlob := reduceSum (parts.map fun s => s.accDif)
  let accNrmGlob := reduceSum (parts.map fun s => s.accNrm)
  let potDifGlob := (potSumGlob - potSumGlob2) * (potSumGlob - potSumGlob2)
  let potNrmGlob := potSumGlob * potSumGlob
  let potRel := sqrt (potDifGlob / potNrmGlob)
  let accRel := sqrt (accDifGlob / accNrmGlob)
  (potRel, accRel)

/-- The value of `potRel` as the spec writes it:
`sqrt((potSum_A − potSum_B)² / potSum_B²)`. -/
def potRelSpec (sqrt : α → α) (potSumA potSumB : α) : α :=
  sqrt ((potSumA - potSumB) ^ 2 / potSumB ^ 2)

end Verify

/-! ### Helper lemmas for `splitRange` -/

/-- Quotient and remainder facts used by all `splitRange` proofs. -/
theorem size_divMod (s n : Int) (hn : 1 ≤ n) :
    n * (s / n) + s % n = s ∧ 0 ≤ s % n ∧ s % n < n :=
  ⟨Int.ediv_add_emod s n, Int.emod_nonneg s (by omega), Int.emod_lt_of_pos s (by omega)⟩


/-- For a valid call with `0 ≤ iSplit < numSplit`, every intermediate value of
`splitRange` is bounded by the inputs: `increment`, `remainder`,
`iSplit * increment` and the offset lie in `[0, end - begin]`, and both
results lie in `[begin, end]`. -/
theorem splitRange_intermediates_bounded (b e k n : Int) (hbe : b < e) (hn : 1 ≤ n)
    (hk0 : 0 ≤ k) (hk : k < n) :
    0 ≤ (e - b) / n ∧ (e - b) / n ≤ e - b ∧
    0 ≤ (e - b) % n ∧ (e - b) % n ≤ e - b ∧
    0 ≤ k * ((e - b) / n) ∧ k * ((e - b) / n) ≤ e - b ∧
    0 ≤ k * ((e - b) / n) + min k ((e - b) % n) ∧
    k * ((e - b) / n) + min k ((e - b) % n) + (e - b) / n
      + (if (e - b) % n > k then 1 else 0) ≤ e - b := by
  obtain ⟨hdm, hr0, hrn⟩ := size_divMod (e - b) n hn
  have hq0 : 0 ≤ (e - b) / n := Int.ediv_nonneg (by omega) (by omega)
  have hkq : 0 ≤ k * ((e - b) / n) := mul_nonneg hk0 hq0
  have hnk : 0 ≤ (n - k - 1) * ((e - b) / n) := mul_nonneg (by omega) hq0
  have hsplit : n * ((e - b) / n) = k * ((e - b) / n) + (e - b) / n
      + (n - k - 1) * ((e - b) / n) := by ring
  have hq1 : 0 ≤ (n - 1) * ((e - b) / n) := mul_nonneg (by omega) hq0
  have hsplit1 : n * ((e - b) / n) = (e - b) / n + (n - 1) * ((e - b) / n) := by ring
  refine ⟨hq0, by omega, hr0, by omega, hkq, by omega, by omega, ?_⟩
  split_ifs <;> omega

/-- A value in the range of a 32-bit `int` is not changed by the reduction. -/
theorem wrapInt32_eq (x : Int) (h0 : -2 ^ 31 ≤ x) (h1 : x < 2 ^ 31) : wrapInt32 x = x := by
  unfold wrapInt32 toI32 toU32
  split_ifs <;> omega

/-- For 32-bit `begin < end` whose difference is representable, `numSplit ≥ 1`
and `0 ≤ iSplit < numSplit`, no operation of `splitRange` overflows; the result
in closed form, with the floor quotient and remainder of `Int`. -/
theorem splitRange_eq (b e k n : Int) (hb : -2 ^ 31 ≤ b) (he : e < 2 ^ 31) (hbe : b < e)
    (hsz : e - b < 2 ^ 31) (hn : 1 ≤ n)
    (hk0 : 0 ≤ k) (hk : k < n) :
    splitRange b e k n =
      some (b + (k * ((e - b) / n) + min k ((e - b) % n)),
        b + (k * ((e - b) / n) + min k ((e - b) % n)) + (e - b) / n
          + (if (e - b) % n > k then 1 else 0)) := by
  have hs : (0 : Int) ≤ e - b := by omega
  have hn0 : (0 : Int) ≤ n := by omega
  have hd : (e - b).tdiv n = (e - b) / n := Int.tdiv_eq_ediv hs hn0
  have hm : (e - b).tmod n = (e - b) % n := Int.tmod_eq_emod hs hn0
  have h1 : ¬ ¬ (e > b) := by omega
  have h2 : ¬ n = 0 := by omega
  obtain ⟨hq0, hq1, hr0, hr1, hkq0, hkq1, ho0, ho1⟩ :=
    splitRange_intermediates_bounded b e k n hbe hn hk0 hk
  have w1 : wrapInt32 (e - b) = e - b := wrapInt32_eq _ (by omega) (by omega)
  have w2 : wrapInt32 ((e - b) / n) = (e - b) / n := wrapInt32_eq _ (by omega) (by omega)
  have w3 : wrapInt32 (k * ((e - b) / n)) = k * ((e - b) / n) :=
    wrapInt32_eq _ (by omega) (by omega)
  have w4 : wrapInt32 (k * ((e - b) / n) + min k ((e - b) % n))
      = k * ((e - b) / n) + min k ((e - b) % n) := by
    apply wrapInt32_eq
    · omega
    · split_ifs at ho1 <;> omega
  have w5 : wrapInt32 (b + (k * ((e - b) / n) + min k ((e - b) % n)))
      = b + (k * ((e - b) / n) + min k ((e - b) % n)) := by
    apply wrapInt32_eq
    · omega
    · split_ifs at ho1 <;> omega
  have w6 : wrapInt32 (b + (k * ((e - b) / n) + min k ((e - b) % n)) + (e - b) / n)
      = b + (k * ((e - b) / n) + min k ((e - b) % n)) + (e - b) / n := by
    apply wrapInt32_eq
    · omega
    · split_ifs at ho1 <;> omega
  simp only [splitRange, if_neg h1, if_neg h2, w1, hd, hm, w2, w3, w4, w5, w6]
  by_cases hrk : (e - b) % n > k
  · have w7 : wrapInt32 (b + (k * ((e - b) / n) + min k ((e - b) % n)) + (e - b) / n + 1)
        = b + (k * ((e - b) / n) + min k ((e - b) % n)) + (e - b) / n + 1 := by
      apply wrapInt32_eq
      · omega
      · rw [if_pos hrk] at ho1; omega
    rw [if_pos hrk, if_pos hrk, w7]
  · rw [if_neg hrk, if_neg hrk, add_zero]

/-- The rational floor of `s / n` is the integer quotient, for `n ≥ 1`. -/
theorem floor_div_eq (s n : Int) (hn : 1 ≤ n) : ⌊(s : ℚ) / (n : ℚ)⌋ = s / n := by
  have hn0 : (0 : ℚ) < n := by exact_mod_cast (by omega : (0 : Int) < n)
  have hdm : n * (s / n) + s % n = s := Int.ediv_add_emod s n
  have hr0 : 0 ≤ s % n := Int.emod_nonneg s (by omega)
  have hrn : s % n < n := Int.emod_lt_of_pos s (by omega)
  have hs : (s : ℚ) = n * ((s / n : Int) : ℚ) + ((s % n : Int) : ℚ) := by exact_mod_cast hdm.symm
  have hr0q : (0 : ℚ) ≤ ((s % n : Int) : ℚ) := by exact_mod_cast hr0
  have hrnq : ((s % n : Int) : ℚ) < n := by exact_mod_cast hrn
  rw [Int.floor_eq_iff]
  constructor
  · rw [le_div_iff₀ hn0]; nlinarith
  · rw [div_lt_iff₀ hn0]; nlinarith

/-- The rational ceiling of `s / n` is the integer quotient, plus one when the
remainder is not zero, for `n ≥ 1`. -/
theorem ceil_div_eq (s n : Int) (hn : 1 ≤ n) :
    ⌈(s : ℚ) / (n : ℚ)⌉ = s / n + (if s % n = 0 then 0 else 1) := by
  have hn0 : (0 : ℚ) < n := by exact_mod_cast (by omega : (0 : Int) < n)
  have hdm : n * (s / n) + s % n = s := Int.ediv_add_emod s n
  have hr0 : 0 ≤ s % n := Int.emod_nonneg s (by omega)
  have hrn : s % n < n := Int.emod_lt_of_pos s (by omega)
  have hs : (s : ℚ) = n * ((s / n : Int) : ℚ) + ((s % n : Int) : ℚ) := by exact_mod_cast hdm.symm
  have hr0q : (0 : ℚ) ≤ ((s % n : Int) : ℚ) := by exact_mod_cast hr0
  have hrnq : ((s % n : Int) : ℚ) < n := by exact_mod_cast hrn
  rw [Int.ceil_eq_iff]
  split_ifs with h
  · have hrq : ((s % n : Int) : ℚ) = 0 := by exact_mod_cast h
    constructor
    · rw [lt_div_iff₀ hn0]; push_cast; nlinarith
    · rw [div_le_iff₀ hn0]; push_cast; nlinarith
  · have hrq : (1 : ℚ) ≤ ((s % n : Int) : ℚ) := by exact_mod_cast (by omega : 1 ≤ s % n)
    constructor
    · rw [lt_div_iff₀ hn0]; push_cast; nlinarith
    · rw [div_le_iff₀ hn0]; push_cast; nlinarith

/-! ### Claims on `splitRange` -/

/-- C1 as stated fails: `begin = -2000000000 < end = 2000000000` are 32-bit
`int`s and `numSplit = 2`, but `end - begin` overflows and share `0` is
`(-2000000000, -2147483648)`, with `beginLocal > endLocal`. -/
theorem splitRange_tiles_counterexample :
    (-2000000000 : Int) < 2000000000 ∧ (1 : Int) ≤ 2 ∧
    splitRange (-2000000000) 2000000000 0 2 = some (-2000000000, -2147483648) ∧
    ¬ (∀ k : Int, 0 ≤ k → k < 2 →
      ∃ s, splitRange (-2000000000) 2000000000 k 2 = some s ∧ s.1 ≤ s.2) := by
  have h : splitRange (-2000000000) 2000000000 0 2 = some (-2000000000, -2147483648) := by
    decide
  refine ⟨by decide, by decide, h, fun hall => ?_⟩
  obtain ⟨s, hs, hle⟩ := hall 0 (by decide) (by decide)
  rw [h] at hs
  cases hs
  exact absurd hle (by decide)

/-- C1, amended. For 32-bit `begin < end` whose difference `end - begin` is
representable (at most `2 ^ 31 - 1`) and `numSplit ≥ 1`, the shares of
`splitRange` tile `[begin, end)`: share `0` starts at `begin`, share `k` ends
where share `k + 1` begins, share `numSplit - 1` ends at `end`, and every share
has `beginLocal ≤ endLocal`. -/
theorem splitRange_tiles (b e n : Int) (hb : -2 ^ 31 ≤ b) (he : e < 2 ^ 31) (hbe : b < e)
    (hsz : e - b < 2 ^ 31) (hn : 1 ≤ n) :
    (∃ s, splitRange b e 0 n = some s ∧ s.1 = b) ∧
    (∀ k, 0 ≤ k → k + 1 < n →
      ∃ s t, splitRange b e k n = some s ∧ splitRange b e (k + 1) n = some t ∧ s.2 = t.1) ∧
    (∃ s, splitRange b e (n - 1) n = some s ∧ s.2 = e) ∧
    (∀ k, 0 ≤ k → k < n → ∃ s, splitRange b e k n = some s ∧ s.1 ≤ s.2) := by
  obtain ⟨hdm, hr0, hrn⟩ := size_divMod (e - b) n hn
  have hq0 : 0 ≤ (e - b) / n := Int.ediv_nonneg (by omega) (by omega)
  have heq := fun k hk0 hk => splitRange_eq b e k n hb he hbe hsz hn hk0 hk
  refine ⟨⟨_, heq 0 (by omega) (by omega), ?_⟩, ?_,
    ⟨_, heq (n - 1) (by omega) (by omega), ?_⟩, ?_⟩
  · show b + (0 * ((e - b) / n) + min 0 ((e - b) % n)) = b
    rw [zero_mul, min_eq_left hr0]; omega
  · intro k hk0 hk1
    refine ⟨_, _, heq k hk0 (by omega), heq (k + 1) (by omega) hk1, ?_⟩
    show b + (k * ((e - b) / n) + min k ((e - b) % n)) + (e - b) / n
        + (if (e - b) % n > k then 1 else 0)
      = b + ((k + 1) * ((e - b) / n) + min (k + 1) ((e - b) % n))
    have hmul : (k + 1) * ((e - b) / n) = k * ((e - b) / n) + (e - b) / n := by ring
    rw [hmul]
    split_ifs <;> omega
  · show b + ((n - 1) * ((e - b) / n) + min (n - 1) ((e - b) % n)) + (e - b) / n
        + (if (e - b) % n > n - 1 then 1 else 0) = e
    have hmul : (n - 1) * ((e - b) / n) = n * ((e - b) / n) - (e - b) / n := by ring
    rw [hmul]
    split_ifs <;> omega
  · intro k hk0 hk
    refine ⟨_, heq k hk0 hk, ?_⟩
    show b + (k * ((e - b) / n) + min k ((e - b) % n))
      ≤ b + (k * ((e - b) / n) + min k ((e - b) % n)) + (e - b) / n
        + (if (e - b) % n > k then 1 else 0)
    split_ifs <;> omega

/-- Witness of the amended C1 at `begin = 0`, `end = 10`, `numSplit = 3`,
together with the three shares `[0,4)`, `[4,7)`, `[7,10)`. -/
theorem splitRange_tiles_witness :
    (-2 ^ 31 ≤ (0 : Int) ∧ (10 : Int) < 2 ^ 31 ∧ (0 : Int) < 10 ∧ (10 : Int) - 0 < 2 ^ 31 ∧
      (1 : Int) ≤ 3) ∧
    (splitRange 0 10 0 3 = some (0, 4) ∧ splitRange 0 10 1 3 = some (4, 7) ∧
      splitRange 0 10 2 3 = some (7, 10)) ∧
    ((∃ s, splitRange 0 10 0 3 = some s ∧ s.1 = 0) ∧
    (∀ k, 0 ≤ k → k + 1 < 3 →
      ∃ s t, splitRange 0 10 k 3 = some s ∧ splitRange 0 10 (k + 1) 3 = some t ∧ s.2 = t.1) ∧
    (∃ s, splitRange 0 10 (3 - 1) 3 = some s ∧ s.2 = 10) ∧
    (∀ k, 0 ≤ k → k < 3 → ∃ s, splitRange 0 10 k 3 = some s ∧ s.1 ≤ s.2)) :=
  ⟨by decide, by decide,
    splitRange_tiles 0 10 3 (by decide) (by decide) (by decide) (by decide) (by decide)⟩

/-- C2 as stated fails: at `begin = -2000000000`, `end = 2000000000`,
`numSplit = 2`, `k = 0` the size `4000000000` has remainder `0`, so the share
should hold `⌊4000000000 / 2⌋ = 2000000000` elements; `end - begin` overflows
and the share returned, `(-2000000000, -2147483648)`, has size `-147483648`. -/
theorem splitRange_share_size_counterexample :
    ((-2000000000 : Int) < 2000000000 ∧ (1 : Int) ≤ 2 ∧ (0 : Int) ≤ 0 ∧ (0 : Int) < 2) ∧
    ¬ ((0 : Int) < ((2000000000 : Int) - (-2000000000)).tmod 2) ∧
    ⌊(((2000000000 : Int) - (-2000000000) : Int) : ℚ) / ((2 : Int) : ℚ)⌋ = 2000000000 ∧
    (splitRange (-2000000000) 2000000000 0 2).map (fun s => s.2 - s.1) = some (-147483648) ∧
    ¬ ∃ s, splitRange (-2000000000) 2000000000 0 2 = some s ∧
      s.2 - s.1 = (if (0 : Int) < ((2000000000 : Int) - (-2000000000)).tmod 2
        then ⌊(((2000000000 : Int) - (-2000000000) : Int) : ℚ) / ((2 : Int) : ℚ)⌋ + 1
        else ⌊(((2000000000 : Int) - (-2000000000) : Int) : ℚ) / ((2 : Int) : ℚ)⌋) := by
  have h : splitRange (-2000000000) 2000000000 0 2 = some (-2000000000, -2147483648) := by
    decide
  have hnot : ¬ ((0 : Int) < ((2000000000 : Int) - (-2000000000)).tmod 2) := by decide
  have hfl : ⌊(((2000000000 : Int) - (-2000000000) : Int) : ℚ) / ((2 : Int) : ℚ)⌋
      = 2000000000 := by
    rw [floor_div_eq _ _ (by decide)]
    decide
  refine ⟨by decide, hnot, hfl, by rw [h]; decide, ?_⟩
  rintro ⟨s, hs, hsz⟩
  rw [h] at hs
  cases hs
  rw [if_neg hnot, hfl] at hsz
  exact absurd hsz (by decide)

/-- C2, amended. For 32-bit `begin < end` whose difference
`size = end - begin` is representable (at most `2 ^ 31 - 1`), `numSplit ≥ 1`
and `0 ≤ k < numSplit`, share `k` of `splitRange` has `⌊size / numSplit⌋ + 1`
elements when `k < size % numSplit` and `⌊size / numSplit⌋` elements
otherwise; hence its size is `⌊size / numSplit⌋` or `⌈size / numSplit⌉`, and
the sizes of two shares differ by at most one. -/
theorem splitRange_share_size (b e n k : Int) (hb : -2 ^ 31 ≤ b) (he : e < 2 ^ 31) (hbe : b < e)
    (hsz : e - b < 2 ^ 31) (hn : 1 ≤ n)
    (hk0 : 0 ≤ k) (hk : k < n) :
    ∃ s, splitRange b e k n = some s ∧
      s.2 - s.1 = (if k < (e - b).tmod n then ⌊((e - b : Int) : ℚ) / (n : ℚ)⌋ + 1
        else ⌊((e - b : Int) : ℚ) / (n : ℚ)⌋) ∧
      (s.2 - s.1 = ⌊((e - b : Int) : ℚ) / (n : ℚ)⌋ ∨
        s.2 - s.1 = ⌈((e - b : Int) : ℚ) / (n : ℚ)⌉) ∧
      ∀ j, 0 ≤ j → j < n →
        ∃ t, splitRange b e j n = some t ∧ |(s.2 - s.1) - (t.2 - t.1)| ≤ 1 := by
  obtain ⟨hdm, hr0, hrn⟩ := size_divMod (e - b) n hn
  have hm : (e - b).tmod n = (e - b) % n := Int.tmod_eq_emod (by omega) (by omega)
  have heq := fun k hk0 hk => splitRange_eq b e k n hb he hbe hsz hn hk0 hk
  refine ⟨_, heq k hk0 hk, ?_, ?_, ?_⟩
  · rw [floor_div_eq _ _ hn, hm]
    show b + (k * ((e - b) / n) + min k ((e - b) % n)) + (e - b) / n
        + (if (e - b) % n > k then 1 else 0) - (b + (k * ((e - b) / n) + min k ((e - b) % n)))
      = if k < (e - b) % n then (e - b) / n + 1 else (e - b) / n
    split_ifs <;> omega
  · rw [floor_div_eq _ _ hn, ceil_div_eq _ _ hn]
    show b + (k * ((e - b) / n) + min k ((e - b) % n)) + (e - b) / n
          + (if (e - b) % n > k then 1 else 0)
          - (b + (k * ((e - b) / n) + min k ((e - b) % n))) = (e - b) / n ∨
        b + (k * ((e - b) / n) + min k ((e - b) % n)) + (e - b) / n
          + (if (e - b) % n > k then 1 else 0)
          - (b + (k * ((e - b) / n) + min k ((e - b) % n)))
          = (e - b) / n + (if (e - b) % n = 0 then 0 else 1)
    split_ifs <;> omega
  · intro j hj0 hj
    refine ⟨_, heq j hj0 hj, ?_⟩
    show |b + (k * ((e - b) / n) + min k ((e - b) % n)) + (e - b) / n
          + (if (e - b) % n > k then 1 else 0)
          - (b + (k * ((e - b) / n) + min k ((e - b) % n)))
        - (b + (j * ((e - b) / n) + min j ((e - b) % n)) + (e - b) / n
          + (if (e - b) % n > j then 1 else 0)
          - (b + (j * ((e - b) / n) + min j ((e - b) % n))))| ≤ 1
    rw [abs_le]
    split_ifs <;> constructor <;> omega

/-- Witness of the amended C2 at `size = 10`, `numSplit = 3`, share `0`,
together with the three share sizes `4, 3, 3`. -/
theorem splitRange_share_size_witness :
    (-2 ^ 31 ≤ (0 : Int) ∧ (10 : Int) < 2 ^ 31 ∧ (0 : Int) < 10 ∧ (10 : Int) - 0 < 2 ^ 31 ∧
      (1 : Int) ≤ 3 ∧ (0 : Int) ≤ 0 ∧ (0 : Int) < 3) ∧
    ((splitRange 0 10 0 3).map (fun s => s.2 - s.1) = some 4 ∧
      (splitRange 0 10 1 3).map (fun s => s.2 - s.1) = some 3 ∧
      (splitRange 0 10 2 3).map (fun s => s.2 - s.1) = some 3) ∧
    ∃ s, splitRange 0 10 0 3 = some s ∧
      s.2 - s.1 = (if (0 : Int) < ((10 : Int) - 0).tmod 3
        then ⌊(((10 : Int) - 0 : Int) : ℚ) / ((3 : Int) : ℚ)⌋ + 1
        else ⌊(((10 : Int) - 0 : Int) : ℚ) / ((3 : Int) : ℚ)⌋) ∧
      (s.2 - s.1 = ⌊(((10 : Int) - 0 : Int) : ℚ) / ((3 : Int) : ℚ)⌋ ∨
        s.2 - s.1 = ⌈(((10 : Int) - 0 : Int) : ℚ) / ((3 : Int) : ℚ)⌉) ∧
      ∀ j, 0 ≤ j → j < 3 →
        ∃ t, splitRange 0 10 j 3 = some t ∧ |(s.2 - s.1) - (t.2 - t.1)| ≤ 1 :=
  ⟨by decide, by decide,
    splitRange_share_size 0 10 3 0 (by decide) (by decide) (by decide) (by decide) (by decide)
      (by decide) (by decide)⟩

/-! ### The packed index -/

/-- A 32-bit pattern survives the conversion to `int` and back. -/
theorem toU32_toI32 (n : Nat) (h : n < 2 ^ 32) : toU32 (toI32 n) = n := by
  unfold toU32 toI32
  rw [Nat.mod_eq_of_lt h]
  split_ifs <;> omega

/-- The pattern of a non-negative `int` is its value. -/
theorem toU32_ofNat (n : Nat) (h : n < 2 ^ 32) : toU32 (n : Int) = n := by
  unfold toU32; omega

/-- A pattern below `2 ^ 31` is a non-negative `int` of the same value. -/
theorem toI32_small (n : Nat) (h : n < 2 ^ 31) : toI32 n = n := by
  unfold toI32
  rw [Nat.mod_eq_of_lt (by omega), if_pos h]

/-- The constant `mask` is `0x1FFFFFFF`. -/
theorem mask_eq : mask = 0x1FFFFFFF := by decide

/-- With `n < 2 ^ 29` the bitwise or with `f << 29` is an addition. -/
theorem pack_eq (n f : Nat) (hn : n < 2 ^ 29) : n ||| f <<< 29 = 2 ^ 29 * f + n := by
  rw [Nat.shiftLeft_eq, Nat.mul_comm f, Nat.lor_comm]
  exact (Nat.mul_add_lt_is_or hn f).symm

/-- The packed index of a valid pair as a 32-bit pattern. -/
theorem encodeIndex_eq (n f : Nat) (hn : n < 2 ^ 29) (hf : f < 8) :
    encodeIndex n f = toI32 (2 ^ 29 * f + n) := by
  unfold encodeIndex or32 shl32 shift
  have h1 : toU32 (f : Int) = f := toU32_ofNat f (by omega)
  have h2 : f <<< 29 % 2 ^ 32 = f <<< 29 := by
    rw [Nat.shiftLeft_eq]; omega
  have h3 : f <<< 29 < 2 ^ 32 := by rw [Nat.shiftLeft_eq]; omega
  rw [h1, h2, toU32_toI32 _ h3, toU32_ofNat n (by omega), pack_eq n f hn]

/-- C3. Index round-trip on 32-bit integers with `shift = 29` and
`mask = ~(0x7 << 29)`: for `0 ≤ id < 2 ^ 29` and `0 ≤ flagBits < 8`, decoding
`id | (flagBits << 29)` as `(encoded & mask, unsigned(encoded) >> 29)` returns
`(id, flagBits)`; the packed `int` is negative exactly when `flagBits ≥ 4`. -/
theorem decode_encode (id flagBits : Int) (hid0 : 0 ≤ id) (hid : id < 2 ^ 29)
    (hf0 : 0 ≤ flagBits) (hf : flagBits < 8) :
    decodeIndex (encodeIndex id flagBits) = (id, flagBits) ∧
    (encodeIndex id flagBits < 0 ↔ 4 ≤ flagBits) := by
  obtain ⟨n, rfl⟩ := Int.eq_ofNat_of_zero_le hid0
  obtain ⟨f, rfl⟩ := Int.eq_ofNat_of_zero_le hf0
  have hn : n < 2 ^ 29 := by exact_mod_cast hid
  have hf8 : f < 8 := by exact_mod_cast hf
  have henc := encodeIndex_eq n f hn hf8
  have hbits : toU32 (encodeIndex n f) = 2 ^ 29 * f + n := by
    rw [henc]; exact toU32_toI32 _ (by omega)
  constructor
  · unfold decodeIndex and32
    rw [hbits, mask_eq]
    have hm : toU32 (0x1FFFFFFF : Int) = 2 ^ 29 - 1 := by decide
    rw [hm, Nat.and_pow_two_sub_one_eq_mod, shift, Nat.shiftRight_eq_div_pow]
    have e1 : (2 ^ 29 * f + n) % 2 ^ 29 = n := by omega
    have e2 : (2 ^ 29 * f + n) / 2 ^ 29 = f := by omega
    rw [e1, e2, toI32_small n (by omega), toI32_small f (by omega)]
  · rw [henc]
    unfold toI32
    rw [Nat.mod_eq_of_lt (by omega : 2 ^ 29 * f + n < 2 ^ 32)]
    split_ifs <;> omega

/-- Witness of C3 at `id = 5`, `flagBits = 5`, where the sign bit is set. -/
theorem decode_encode_witness :
    decodeIndex (encodeIndex 5 5) = (5, 5) ∧ (encodeIndex 5 5 < 0 ↔ (4 : Int) ≤ 5) :=
  decode_encode 5 5 (by decide) (by decide) (by decide) (by decide)

/-! ### Periodic wrap and unwrap -/

section RealLemmas
variable {α : Type} [LinearOrderedField α]

/-- One step of `wrap` rewrites the coordinate `d` by `wrapCoord`. -/
theorem wrapStep_fst (cycle : α) (s : (Nat → α) × Nat) (d : Nat) :
    (wrapStep cycle s d).1 = Function.update s.1 d (wrapCoord cycle (s.1 d)) := by
  unfold wrapStep wrapCoord
  by_cases h1 : s.1 d < 0 <;> by_cases h2 : s.1 d + cycle > cycle <;>
    by_cases h3 : s.1 d > cycle <;> simp [h1, h2, h3]

/-- One step of `wrap` sets the bit `d` exactly when a test fires. -/
theorem wrapStep_snd (cycle : α) (s : (Nat → α) × Nat) (d : Nat) :
    (wrapStep cycle s d).2 = if wrapFlag cycle (s.1 d) then s.2 ||| (1 <<< d) else s.2 := by
  unfold wrapStep wrapFlag
  by_cases h1 : s.1 d < 0 <;> by_cases h2 : s.1 d + cycle > cycle <;>
    by_cases h3 : s.1 d > cycle <;> simp [h1, h2, h3, Nat.or_assoc]

/-- The vector returned by `wrap`, coordinate by coordinate. -/
theorem wrap_fst (X : Nat → α) (cycle : α) (d : Nat) :
    (wrap X cycle).1 d = if d < 3 then wrapCoord cycle (X d) else X d := by
  have hr : List.range 3 = [0, 1, 2] := rfl
  simp only [wrap, hr, List.foldl, wrapStep_fst]
  by_cases h0 : d = 0
  · subst h0; simp [Function.update]
  by_cases h1 : d = 1
  · subst h1; simp [Function.update]
  by_cases h2 : d = 2
  · subst h2; simp [Function.update]
  have : ¬ d < 3 := by omega
  simp [Function.update, h0, h1, h2, this]

/-- The bit `d` of the flag word of `wrap` is set exactly when a test fired on
the axis `d`. -/
theorem wrap_snd_bit (X : Nat → α) (cycle : α) (d : Nat) (hd : d < 3) :
    (((wrap X cycle).2 >>> d) &&& 1 ≠ 0) ↔ wrapFlag cycle (X d) = true := by
  have hr : List.range 3 = [0, 1, 2] := rfl
  simp only [wrap, hr, List.foldl, wrapStep_snd, wrapStep_fst]
  have e0 : (Function.update X 0 (wrapCoord cycle (X 0))) 1 = X 1 := by simp [Function.update]
  have e1 : (Function.update (Function.update X 0 (wrapCoord cycle (X 0))) 1
      (wrapCoord cycle (Function.update X 0 (wrapCoord cycle (X 0)) 1))) 2 = X 2 := by
    simp [Function.update]
  rw [e1, e0]
  interval_cases d <;>
    cases wrapFlag cycle (X 0) <;> cases wrapFlag cycle (X 1) <;> cases wrapFlag cycle (X 2) <;>
    decide
/-- One step of `unwrap` rewrites the coordinate `d` by `unwrapCoord`. -/
theorem unwrapStep_eq (cycle : α) (iwrap : Nat) (X : Nat → α) (d : Nat) :
    unwrapStep cycle iwrap X d
      = Function.update X d (unwrapCoord cycle (decide ((iwrap >>> d) &&& 1 ≠ 0)) (X d)) := by
  unfold unwrapStep unwrapCoord
  by_cases h : (iwrap >>> d) &&& 1 ≠ 0
  · rw [if_pos h, decide_eq_true h, if_pos rfl]
  · rw [if_neg h, decide_eq_false h, if_neg Bool.false_ne_true, Function.update_eq_self]

/-- The vector returned by `unwrap`, coordinate by coordinate. -/
theorem unwrap_apply (W : Nat → α) (cycle : α) (iwrap : Nat) (d : Nat) :
    unwrap W cycle iwrap d
      = if d < 3 then unwrapCoord cycle (decide ((iwrap >>> d) &&& 1 ≠ 0)) (W d) else W d := by
  have hr : List.range 3 = [0, 1, 2] := rfl
  simp only [unwrap, hr, List.foldl, unwrapStep_eq]
  by_cases h0 : d = 0
  · subst h0; simp [Function.update]
  by_cases h1 : d = 1
  · subst h1; simp [Function.update]
  by_cases h2 : d = 2
  · subst h2; simp [Function.update]
  have : ¬ d < 3 := by omega
  simp [Function.update, h0, h1, h2, this]

/-- The three cases of `wrap` on one coordinate. -/
theorem wrapCoord_cases (cycle c : α) :
    (c < 0 ∧ wrapCoord cycle c = c + cycle ∧ wrapFlag cycle c = true) ∨
    (cycle < c ∧ wrapCoord cycle c = c - cycle ∧ wrapFlag cycle c = true) ∨
    (0 ≤ c ∧ c ≤ cycle ∧ wrapCoord cycle c = c ∧ wrapFlag cycle c = false) := by
  unfold wrapCoord wrapFlag
  by_cases h1 : c < 0
  · left
    have h2 : ¬ (c + cycle > cycle) := by linarith
    simp [h1, h2]
  · by_cases h3 : c > cycle
    · right; left
      simp [h1, h3]
    · right; right
      simp [h1, h3]
      exact ⟨le_of_not_lt h1, le_of_not_lt h3⟩

/-- Wrap followed by unwrap on one coordinate. -/
theorem coord_roundtrip (cycle c : α) :
    (∃ k : Int, unwrapCoord cycle (wrapFlag cycle c) (wrapCoord cycle c) = c + k * cycle) ∧
    (-cycle / 2 < c → c ≤ 3 * cycle / 2 →
      unwrapCoord cycle (wrapFlag cycle c) (wrapCoord cycle c) = c) := by
  rcases wrapCoord_cases cycle c with ⟨h, hw, hf⟩ | ⟨h, hw, hf⟩ | ⟨h0, h1, hw, hf⟩
  · rw [hw, hf]
    unfold unwrapCoord
    by_cases h2 : c + cycle > cycle / 2
    · simp only [h2, ite_true]
      exact ⟨⟨0, by push_cast; ring⟩, fun _ _ => by ring⟩
    · simp only [h2, ite_true, ite_false]
      exact ⟨⟨2, by push_cast; ring⟩, fun h3 _ => absurd (by linarith) h2⟩
  · rw [hw, hf]
    unfold unwrapCoord
    by_cases h2 : c - cycle > cycle / 2
    · simp only [h2, ite_true]
      exact ⟨⟨-2, by push_cast; ring⟩, fun _ h3 => absurd h2 (by linarith)⟩
    · simp only [h2, ite_true, ite_false]
      exact ⟨⟨0, by push_cast; ring⟩, fun _ _ => by ring⟩
  · rw [hw, hf]
    unfold unwrapCoord
    simp only [Bool.false_eq_true, ite_false]
    exact ⟨⟨0, by push_cast; ring⟩, fun _ _ => trivial⟩

/-- C4. Wrap/unwrap consistency in exact arithmetic: for `cycle > 0` and a
position whose three coordinates lie in `[-cycle, 2 * cycle]`, `unwrap` applied
to the position and flag word produced by `wrap` restores every coordinate up
to an integer multiple of `cycle`, and exactly when the coordinate lies in
`(-cycle / 2, 3 * cycle / 2]`. -/
theorem unwrap_wrap (cycle : α) (X : Nat → α) (_hc : 0 < cycle)
    (_hX : ∀ d, d < 3 → -cycle ≤ X d ∧ X d ≤ 2 * cycle) :
    ∀ d, d < 3 →
      (∃ k : Int, unwrap (wrap X cycle).1 cycle (wrap X cycle).2 d = X d + k * cycle) ∧
      (-cycle / 2 < X d → X d ≤ 3 * cycle / 2 →
        unwrap (wrap X cycle).1 cycle (wrap X cycle).2 d = X d) := by
  intro d hd
  have hbit : decide (((wrap X cycle).2 >>> d) &&& 1 ≠ 0) = wrapFlag cycle (X d) := by
    rw [Bool.eq_iff_iff, decide_eq_true_iff]
    exact wrap_snd_bit X cycle d hd
  rw [unwrap_apply, if_pos hd, wrap_fst, if_pos hd, hbit]
  exact coord_roundtrip cycle (X d)

/-- C9, amended. For `cycle > 0` and a position whose three coordinates lie in
`[-cycle, 2 * cycle]`, after `wrap` every coordinate `c` satisfies
`0 ≤ c ≤ cycle`: the closed interval, since the test `X[d] > cycle` is strict
and leaves a coordinate equal to `cycle` in place. -/
theorem wrap_closed_range (cycle : α) (X : Nat → α) (_hc : 0 < cycle)
    (hX : ∀ d, d < 3 → -cycle ≤ X d ∧ X d ≤ 2 * cycle) :
    ∀ d, d < 3 → 0 ≤ (wrap X cycle).1 d ∧ (wrap X cycle).1 d ≤ cycle := by
  intro d hd
  obtain ⟨hlo, hhi⟩ := hX d hd
  rw [wrap_fst, if_pos hd]
  rcases wrapCoord_cases cycle (X d) with ⟨h, hw, _⟩ | ⟨h, hw, _⟩ | ⟨h0, h1, hw, _⟩
  · rw [hw]; exact ⟨by linarith, by linarith⟩
  · rw [hw]; exact ⟨by linarith, by linarith⟩
  · rw [hw]; exact ⟨h0, h1⟩

end RealLemmas

/-- Witness of C4 at `cycle = 10` and the position `(-4, 3, 10)`, axis `0`,
where the coordinate is restored exactly. -/
theorem unwrap_wrap_witness :
    ((0 : ℚ) < 10 ∧
      ∀ d, d < 3 → -(10 : ℚ) ≤ (fun d : Nat => (d : ℚ) * 7 - 4) d ∧
        (fun d : Nat => (d : ℚ) * 7 - 4) d ≤ 2 * 10) ∧
    unwrap (wrap (fun d : Nat => (d : ℚ) * 7 - 4) 10).1 10
        (wrap (fun d : Nat => (d : ℚ) * 7 - 4) 10).2 0
      = (fun d : Nat => (d : ℚ) * 7 - 4) 0 :=
  have hX : ∀ d, d < 3 → -(10 : ℚ) ≤ (fun d : Nat => (d : ℚ) * 7 - 4) d ∧
      (fun d : Nat => (d : ℚ) * 7 - 4) d ≤ 2 * 10 := by
    intro d hd
    interval_cases d <;> norm_num
  ⟨⟨by norm_num, hX⟩,
    (unwrap_wrap (10 : ℚ) (fun d : Nat => (d : ℚ) * 7 - 4) (by norm_num) hX 0 (by decide)).2
      (by norm_num) (by norm_num)⟩

/-- C9 as stated fails: with `cycle = 1` the position `(1, 1, 1)` lies within
one cell-width of the cell, and `wrap` leaves the coordinate `1`, which is not
below `cycle`. -/
theorem wrap_half_open_counterexample :
    (0 : ℚ) < 1 ∧
    (∀ d, d < 3 → -(1 : ℚ) ≤ (fun _ : Nat => (1 : ℚ)) d ∧ (fun _ : Nat => (1 : ℚ)) d ≤ 2 * 1) ∧
    (wrap (fun _ : Nat => (1 : ℚ)) 1).1 0 = 1 ∧
    ¬ ((wrap (fun _ : Nat => (1 : ℚ)) 1).1 0 < 1) := by
  have h : (wrap (fun _ : Nat => (1 : ℚ)) 1).1 0 = 1 := by
    rw [wrap_fst]
    norm_num [wrapCoord]
  refine ⟨by norm_num, fun d _ => by norm_num, h, ?_⟩
  rw [h]
  norm_num

/-- Witness of the amended C9 at `cycle = 10` and the position `(-4, 3, 10)`,
axis `0`. -/
theorem wrap_closed_range_witness :
    ((0 : ℚ) < 10 ∧
      ∀ d, d < 3 → -(10 : ℚ) ≤ (fun d : Nat => (d : ℚ) * 7 - 4) d ∧
        (fun d : Nat => (d : ℚ) * 7 - 4) d ≤ 2 * 10) ∧
    0 ≤ (wrap (fun d : Nat => (d : ℚ) * 7 - 4) 10).1 0 ∧
    (wrap (fun d : Nat => (d : ℚ) * 7 - 4) 10).1 0 ≤ 10 :=
  have hX : ∀ d, d < 3 → -(10 : ℚ) ≤ (fun d : Nat => (d : ℚ) * 7 - 4) d ∧
      (fun d : Nat => (d : ℚ) * 7 - 4) d ≤ 2 * 10 := by
    intro d hd
    interval_cases d <;> norm_num
  ⟨⟨by norm_num, hX⟩,
    wrap_closed_range (10 : ℚ) (fun d : Nat => (d : ℚ) * 7 - 4) (by norm_num) hX 0 (by decide)⟩

/-! ### The direct Van der Waals kernel -/

section KernelLemmas
variable {α : Type} [LinearOrderedField α]

/-- The displacement of a particle from itself is the zero vector on the
three axes, when `cycle` is not negative. -/
theorem pairDisplacement_self (x : Nat → α) (cycle : α) (hc : 0 ≤ cycle) (i d : Nat) :
    pairDisplacement x cycle i i d = 0 := by
  unfold pairDisplacement
  rw [wrap_fst]
  have h : ¬ (0 : α) > cycle := not_lt.mpr hc
  by_cases hd : d < 3 <;> simp [hd, wrapCoord, h]

/-- At `R2 = cuton²` the `dtmp` of the switched branch is `-6 * rs` times the
`dtmp` of the unswitched branch. -/
theorem switchedBranch_force_at_cuton (cuton cutoff rs : α) (h0 : 0 < cuton)
    (h1 : cuton < cutoff) (hrs : 0 < rs) :
    (switchedBranch cuton cutoff rs (cuton ^ 2)).2
      = -6 * rs * (unswitchedBranch rs (cuton ^ 2)).2 := by
  have hD : cutoff * cutoff - cuton * cuton ≠ 0 := by nlinarith
  have hc : cuton ≠ 0 := ne_of_gt h0
  have hr : rs ≠ 0 := ne_of_gt hrs
  simp only [switchedBranch, unswitchedBranch]
  have e : cutoff * cutoff - cuton ^ 2 = cutoff * cutoff - cuton * cuton := by ring
  rw [e]
  field_simp
  ring

end KernelLemmas

/-- C6, evaluation of the code: with `cuton = 1`, `cutoff = 2`, `rs = 1` and
`R2 = cuton² = 1` the switched branch gives `dtmp = -6` and the unswitched
branch gives `dtmp = 1`. -/
theorem force_discontinuous_at_cuton :
    (switchedBranch (1 : ℚ) 2 1 (1 ^ 2)).2 = -6 ∧ (unswitchedBranch (1 : ℚ) (1 ^ 2)).2 = 1 := by
  constructor <;> norm_num [switchedBranch, unswitchedBranch]

/-- C7. Energy continuity in exact arithmetic, for `0 < cuton < cutoff` and
`rescale > 0`: the `tmp` of the switched branch is `invR6 * (invR6 - 1) * S(R2)`
with the polynomial `S` of the spec; at `R2 = cuton²` it equals the `tmp` of
the unswitched branch, `invR6 * (invR6 - 1)`; at `R2 = cutoff²` it is `0`. -/
theorem switched_energy_continuous {α : Type} [LinearOrderedField α] (cuton cutoff rs : α)
    (h0 : 0 < cuton) (h1 : cuton < cutoff) (_hrs : 0 < rs) :
    (∀ R2 : α, (switchedBranch cuton cutoff rs R2).1
      = (1 / (R2 * rs)) ^ 3 * ((1 / (R2 * rs)) ^ 3 - 1) * switchS cuton cutoff R2) ∧
    (switchedBranch cuton cutoff rs (cuton ^ 2)).1 = (unswitchedBranch rs (cuton ^ 2)).1 ∧
    (unswitchedBranch rs (cuton ^ 2)).1
      = (1 / (cuton ^ 2 * rs)) ^ 3 * ((1 / (cuton ^ 2 * rs)) ^ 3 - 1) ∧
    (switchedBranch cuton cutoff rs (cutoff ^ 2)).1 = 0 := by
  have hD : cutoff * cutoff - cuton * cuton ≠ 0 := by nlinarith
  have hD2 : cutoff ^ 2 - cuton ^ 2 ≠ 0 := by
    have : cutoff ^ 2 - cuton ^ 2 = cutoff * cutoff - cuton * cuton := by ring
    rw [this]; exact hD
  refine ⟨fun R2 => ?_, ?_, ?_, ?_⟩
  · simp only [switchedBranch, switchS]
    field_simp
    ring
  · simp only [switchedBranch, unswitchedBranch]
    have e : cutoff * cutoff - cuton ^ 2 = cutoff * cutoff - cuton * cuton := by ring
    have e2 : cutoff * cutoff - 3 * (cuton * cuton) + 2 * cuton ^ 2
        = cutoff * cutoff - cuton * cuton := by ring
    rw [e, e2]
    have t2 : (cutoff * cutoff - cuton * cuton)
        / ((cutoff * cutoff - cuton * cuton) * (cutoff * cutoff - cuton * cuton)
          * (cutoff * cutoff - cuton * cuton))
        * (cutoff * cutoff - cuton * cuton) * (cutoff * cutoff - cuton * cuton) = 1 := by
      field_simp
    rw [t2, mul_one]
  · simp only [unswitchedBranch]
    ring
  · simp only [switchedBranch]
    have e : cutoff * cutoff - cutoff ^ 2 = 0 := by ring
    rw [e]
    simp

/-- Witness of C7 at `cuton = 1`, `cutoff = 2`, `rescale = 1`. -/
theorem switched_energy_continuous_witness :
    ((0 : ℚ) < 1 ∧ (1 : ℚ) < 2 ∧ (0 : ℚ) < 1) ∧
    ((∀ R2 : ℚ, (switchedBranch 1 2 1 R2).1
      = (1 / (R2 * 1)) ^ 3 * ((1 / (R2 * 1)) ^ 3 - 1) * switchS 1 2 R2) ∧
    (switchedBranch (1 : ℚ) 2 1 (1 ^ 2)).1 = (unswitchedBranch (1 : ℚ) (1 ^ 2)).1 ∧
    (unswitchedBranch (1 : ℚ) (1 ^ 2)).1
      = (1 / (1 ^ 2 * 1)) ^ 3 * ((1 / (1 ^ 2 * 1)) ^ 3 - 1) ∧
    (switchedBranch (1 : ℚ) 2 1 (2 ^ 2)).1 = 0) :=
  ⟨⟨by norm_num, by norm_num, by norm_num⟩,
    switched_energy_continuous (1 : ℚ) 2 1 (by norm_num) (by norm_num) (by norm_num)⟩

/-- C10. Zero-distance guard: for `cycle > 0` and every configuration, type
table and `cuton` / `cutoff`, the term `j = i` of `directVanDerWaals` leaves
the accumulators `pp, fx, fy, fz` of particle `i` unchanged; for a system of a
single particle, `directVanDerWaals` leaves `p` and `f` unchanged. -/
theorem directVanDerWaals_self_term_zero {α : Type} [LinearOrderedField α]
    (cycle : α) (hc : 0 < cycle) (icpumap atype : Nat → Int) (x : Nat → α)
    (cuton cutoff : α) (numTypes : Int) (rscale gscale fgscale : Int → α) :
    (∀ (i : Nat) (acc : Acc α),
      pairStep atype x cuton cutoff cycle numTypes rscale gscale fgscale i acc i = acc) ∧
    (∀ p f : Nat → α,
      directVanDerWaals 1 icpumap atype x p f cuton cutoff cycle numTypes rscale gscale fgscale
        = (p, f)) := by
  have hself : ∀ (i : Nat) (acc : Acc α),
      pairStep atype x cuton cutoff cycle numTypes rscale gscale fgscale i acc i = acc := by
    intro i acc
    have hR2 : norm (pairDisplacement x cycle i i) = 0 := by
      simp only [norm, pairDisplacement_self x cycle (le_of_lt hc)]
      ring
    have hn : ¬ norm (pairDisplacement x cycle i i) ≠ 0 := not_not.mpr hR2
    simp only [pairStep, if_neg hn]
  refine ⟨hself, fun p f => ?_⟩
  have hr : List.range (1 : Int).toNat = [0] := rfl
  simp only [directVanDerWaals, hr, List.foldl, directStep, hself]
  split_ifs
  · simp only [add_zero, sub_zero, Function.update_eq_self]
  · rfl

/-- Witness of C10 at `cycle = 10`, one owned particle at `(1, 2, 3)`. -/
theorem directVanDerWaals_self_term_zero_witness :
    (0 : ℚ) < 10 ∧
    ((∀ (i : Nat) (acc : Acc ℚ),
      pairStep (fun _ => 1) (fun n : Nat => (n : ℚ) + 1) 1 2 10 1
        (fun _ => 1) (fun _ => 1) (fun _ => 1) i acc i = acc) ∧
    (∀ p f : Nat → ℚ,
      directVanDerWaals 1 (fun _ => 1) (fun _ => 1) (fun n : Nat => (n : ℚ) + 1) p f 1 2 10 1
        (fun _ => 1) (fun _ => 1) (fun _ => 1) = (p, f))) :=
  ⟨by norm_num,
    directVanDerWaals_self_term_zero (10 : ℚ) (by norm_num) (fun _ => 1) (fun _ => 1)
      (fun n : Nat => (n : ℚ) + 1) 1 2 1 (fun _ => 1) (fun _ => 1) (fun _ => 1)⟩

/-! ### The validation step -/

/-- C8, evaluation of the code: one worker owning one particle with `p[0] = 1`
(first producer) and `p2[0] = 2` (reference producer).  The code reports
`potRel = sqrt((1 - 2)² / 1²) = 1`, normalised by the first producer's sum,
where the spec's formula gives `sqrt((1 - 2)² / 2²) = 1 / 2`. -/
theorem verify_potRel_normalised_by_first_sum :
    (verify Real.sqrt
      [localSums 1 (fun _ => 1) (fun _ => (1 : ℝ)) (fun _ => 2) (fun _ => 1) (fun _ => 1)]).1 = 1 ∧
    potRelSpec Real.sqrt (1 : ℝ) 2 = 1 / 2 := by
  have hr : List.range (1 : Int).toNat = [0] := rfl
  constructor
  · simp only [verify, localSums, hr, List.foldl, sumsStep, reduceSum, List.map]
    norm_num
  · simp only [potRelSpec]
    have h : ((1 : ℝ) - 2) ^ 2 / 2 ^ 2 = (1 / 2) ^ 2 := by norm_num
    rw [h, Real.sqrt_sq (by norm_num)]

end Charmm
